import Mathlib

/-!
Verification of `src/ball-tracking/scripts/export_model.py`.

The script is a straight-line orchestration: load a model (`YOLO(f"{model_name}.pt")`),
export it (`model.export(format="tfjs")`, which writes a directory named
`{model_name}_web_model` into the current working directory), then
  * `if output_dir.exists(): shutil.rmtree(output_dir)`
  * `output_dir.parent.mkdir(parents=True, exist_ok=True)`
  * `shutil.move(export_dir, output_dir)`
  * `total_size = sum(f.stat().st_size for f in output_dir.rglob("*") if f.is_file())`

We embed the filesystem as a tree of named entries.  Symbolic links are modelled
as leaves carrying their resolved kind (link to a regular file of a given target
size, link to a directory, or broken link); path resolution in this model walks
through directory nodes only.  This captures the behaviour of the `pathlib`
predicates used by the script: `Path.exists` follows links (a broken link does
not "exist"), `Path.is_file` is true for regular files and for links whose
target is a regular file (`stat` then reports the target's size), and
`Path.rglob("*")` lists links without descending through links to directories.
`shutil.rmtree` fails on anything that is not a real directory (including a
link to a directory), `mkdir(parents=True, exist_ok=True)` fails when an
existing path component is not a directory, and `shutil.move` here always runs
with an absent destination on every path the script can actually reach (the
destination was just removed or never existed), so it is a rename: it fails if
the source is missing, the destination is still present (only possible for a
broken-link destination, where the underlying `rename` also fails), or the
destination's parent chain is not made of directories.

The external collaborators (model loading and the framework's exporter) are
parameters: a predicate saying which load arguments succeed, and an optional
directory listing produced by the exporter.
-/

set_option autoImplicit false

namespace ExportModel

/-- A filesystem path, as its list of components from the root. -/
abbrev FsPath := List String

mutual

/-- One filesystem entry: a regular file with its byte size, a symbolic link
(recorded with its resolved kind), or a directory of named entries. -/
inductive Entry where
  | file (size : Nat)
  | slinkFile (targetSize : Nat)
  | slinkDir
  | slinkBroken
  | dir (children : Entries)
deriving DecidableEq

/-- The named children of a directory. -/
inductive Entries where
  | nil
  | cons (name : String) (entry : Entry) (rest : Entries)
deriving DecidableEq

end

namespace Entries

/-- First child with the given name. -/
def findChild : Entries → String → Option Entry
  | .nil, _ => none
  | .cons n e rest, c => if n = c then some e else findChild rest c

/-- Replace the first child with the given name, or append a new one. -/
def setChild : Entries → String → Entry → Entries
  | .nil, c, e => .cons c e .nil
  | .cons n e' rest, c, e =>
      if n = c then .cons n e rest else .cons n e' (setChild rest c e)

/-- Remove every child with the given name. -/
def removeChild : Entries → String → Entries
  | .nil, _ => .nil
  | .cons n e rest, c =>
      if n = c then removeChild rest c else .cons n e (removeChild rest c)

end Entries

/-- Resolve a path to the entry it denotes, descending through directories. -/
def lookup (fs : Entry) : FsPath → Option Entry
  | [] => some fs
  | c :: rest =>
      match fs with
      | .dir cs =>
          match cs.findChild c with
          | some sub => lookup sub rest
          | none => none
      | _ => none

/-- Place an entry at a path.  Every intermediate component must be an existing
directory; the final component is created or overwritten.  Fails (`none`) when
the parent chain is missing or goes through a non-directory. -/
def setAt (fs : Entry) : FsPath → Entry → Option Entry
  | [], e => some e
  | [c], e =>
      match fs with
      | .dir cs => some (.dir (cs.setChild c e))
      | _ => none
  | c :: c' :: rest, e =>
      match fs with
      | .dir cs =>
          match cs.findChild c with
          | some sub => (setAt sub (c' :: rest) e).map (fun sub' => .dir (cs.setChild c sub'))
          | none => none
      | _ => none

/-- Remove the entry at a path.  Fails on the root or when the path does not
denote an existing entry. -/
def removeAt (fs : Entry) : FsPath → Option Entry
  | [] => none
  | [c] =>
      match fs with
      | .dir cs =>
          match cs.findChild c with
          | some _ => some (.dir (cs.removeChild c))
          | none => none
      | _ => none
  | c :: c' :: rest =>
      match fs with
      | .dir cs =>
          match cs.findChild c with
          | some sub => (removeAt sub (c' :: rest)).map (fun sub' => .dir (cs.setChild c sub'))
          | none => none
      | _ => none

/-- `Path.exists()`: the path resolves to something, links followed, so a
broken symbolic link does not count. -/
def existsFollow (fs : Entry) (p : FsPath) : Bool :=
  match lookup fs p with
  | some .slinkBroken => false
  | some _ => true
  | none => false

/-- `shutil.rmtree(p)`: requires an actual directory (it refuses files and
symbolic links), and removes it with its whole subtree. -/
def rmtreeFs (fs : Entry) (p : FsPath) : Option Entry :=
  match lookup fs p with
  | some (.dir _) => removeAt fs p
  | _ => none

/-- `p.mkdir(parents=True, exist_ok=True)`: make every component of `p` a
directory, creating the missing ones; fails when an existing component is not a
directory. -/
def mkdirParents (fs : Entry) : FsPath → Option Entry
  | [] =>
      match fs with
      | .dir _ => some fs
      | _ => none
  | c :: rest =>
      match fs with
      | .dir cs =>
          match
            mkdirParents (match cs.findChild c with
              | some sub => sub
              | none => .dir .nil) rest
          with
          | some sub' => some (.dir (cs.setChild c sub'))
          | none => none
      | _ => none

/-- `shutil.move(src, dst)` as the script reaches it: a rename.  Fails if the
source is missing, the destination still resolves to something, or the
destination's parent chain is broken once the source is detached. -/
def moveFs (fs : Entry) (src dst : FsPath) : Option Entry :=
  match lookup fs src with
  | none => none
  | some e =>
      match removeAt fs src with
      | none => none
      | some fs' =>
          match lookup fs' dst with
          | some _ => none
          | none => setAt fs' dst e

mutual

/-- `p.rglob("*")`: every entry strictly below a directory, not descending
through symbolic links. -/
def rglobAll : Entry → List Entry
  | .dir cs => rglobEntries cs
  | _ => []

/-- The entries strictly below a list of children, each child followed by its
own descendants. -/
def rglobEntries : Entries → List Entry
  | .nil => []
  | .cons _ e rest => e :: (rglobAll e ++ rglobEntries rest)

end

/-- `Path.is_file()`: true for a regular file and for a symbolic link whose
target is a regular file. -/
def isFile : Entry → Bool
  | .file _ => true
  | .slinkFile _ => true
  | _ => false

/-- `stat().st_size` as the script uses it (only ever applied after an
`is_file()` check): the size of the regular file the path resolves to. -/
def stSize : Entry → Nat
  | .file s => s
  | .slinkFile s => s
  | _ => 0

/-- The script's size computation at one entry:
`sum(f.stat().st_size for f in e.rglob("*") if f.is_file())`. -/
def codeTotal (e : Entry) : Nat :=
  (((rglobAll e).filter isFile).map stSize).sum

/-- The script's size computation at a path of the filesystem; a path that
resolves to nothing contributes an empty `rglob`, hence `0`. -/
def totalSizeAt (fs : Entry) (p : FsPath) : Nat :=
  match lookup fs p with
  | some e => codeTotal e
  | none => 0

/-- The error taxonomy of the spec: load failure, exporter failure, and
filesystem failure during remove / create / move. -/
inductive ExportError where
  | modelNotFound
  | exportFailure
  | filesystemError
deriving DecidableEq

/-- One observable step of a run: the load call with its argument string, the
exporter call, and the three filesystem operations.  An operation is recorded
when it is performed (for the fallible ones: when it succeeds). -/
inductive Op where
  | loadCall (arg : String)
  | exportCall
  | rmtreeOp (p : FsPath)
  | mkdirOp (p : FsPath)
  | moveOp (src dst : FsPath)
deriving DecidableEq

/-- The outcome of a run: the ordered trace of performed steps, the final
filesystem, and either the reported `(directory, total byte size)` pair or the
error that aborted the run. -/
structure RunOutcome where
  trace : List Op
  fs : Entry
  result : Except ExportError (FsPath × Nat)

/-- The tail of the run from the `output_dir.parent.mkdir` line on:
`output_dir.parent.mkdir(parents=True, exist_ok=True)`, then
`shutil.move(export_dir, output_dir)`, then the size sum and the report. -/
def movePhase (export_dir output_dir : FsPath) (tr : List Op) (fs : Entry) : RunOutcome :=
  match mkdirParents fs output_dir.dropLast with
  | none => ⟨tr, fs, .error .filesystemError⟩
  | some fs3 =>
      let tr3 := tr ++ [Op.mkdirOp output_dir.dropLast]
      match moveFs fs3 export_dir output_dir with
      | none => ⟨tr3, fs3, .error .filesystemError⟩
      | some fs4 =>
          ⟨tr3 ++ [Op.moveOp export_dir output_dir], fs4,
            .ok (output_dir, totalSizeAt fs4 output_dir)⟩

/-- `export_dir = Path(f"{model_name}_web_model")`: the conventional directory
name the framework's exporter produces, resolved in the current working
directory. -/
def exportDirPath (cwd : FsPath) (model_name : String) : FsPath :=
  cwd ++ [model_name ++ "_web_model"]

/-- The embedding of `export_model(model_name, output_dir)`.

`loadOk` tells which argument strings `YOLO(...)` accepts; `exportOut` is the
directory listing the framework's exporter produces (or `none` when the export
fails), written into the current working directory `cwd` under the name
`{model_name}_web_model`. -/
def export_model (loadOk : String → Bool) (exportOut : Option Entries)
    (cwd : FsPath) (model_name : String) (output_dir : FsPath) (fs : Entry) :
    RunOutcome :=
  -- model = YOLO(f"{model_name}.pt")
  let tr0 := [Op.loadCall (model_name ++ ".pt")]
  if loadOk (model_name ++ ".pt") = false then
    ⟨tr0, fs, .error .modelNotFound⟩
  else
    -- model.export(format="tfjs") writes {model_name}_web_model into cwd
    match exportOut with
    | none => ⟨tr0, fs, .error .exportFailure⟩
    | some t =>
        let export_dir := exportDirPath cwd model_name
        match setAt fs export_dir (.dir t) with
        | none => ⟨tr0, fs, .error .exportFailure⟩
        | some fs1 =>
            let tr1 := tr0 ++ [Op.exportCall]
            -- if output_dir.exists(): shutil.rmtree(output_dir)
            if existsFollow fs1 output_dir then
              match rmtreeFs fs1 output_dir with
              | none => ⟨tr1, fs1, .error .filesystemError⟩
              | some fs2 =>
                  movePhase export_dir output_dir
                    (tr1 ++ [Op.rmtreeOp output_dir]) fs2
            else
              movePhase export_dir output_dir tr1 fs1

/-- Every component of `p` (including the root and `p` itself) resolves to a
directory: the "parent chain exists" predicate of the spec. -/
def dirsExist (fs : Entry) : FsPath → Bool
  | [] =>
      match fs with
      | .dir _ => true
      | _ => false
  | c :: rest =>
      match fs with
      | .dir cs =>
          match cs.findChild c with
          | some sub => dirsExist sub rest
          | none => false
      | _ => false

mutual

/-- Spec-side quantity for one entry: the byte size contributed when only
regular files count and symbolic links and directories are excluded. -/
def regularOf : Entry → Nat
  | .file s => s
  | .dir cs => regularSum cs
  | _ => 0

/-- Spec-side quantity: sum of the byte sizes of the regular files in a
directory listing, recursively, symbolic links and directories excluded. -/
def regularSum : Entries → Nat
  | .nil => 0
  | .cons _ e rest => regularOf e + regularSum rest

end

/-- Sum of the byte sizes of the regular files strictly under a path,
symbolic links and directories excluded (the sum claim C1 talks about). -/
def specRegularTotalAt (fs : Entry) (p : FsPath) : Nat :=
  match lookup fs p with
  | some (.dir cs) => regularSum cs
  | _ => 0

mutual

/-- Amended spec-side quantity for one entry: the byte size contributed when
every path resolving to a regular file counts — regular files, and symbolic
links whose target is a regular file at the target's size; directories, links
to directories and broken links contribute nothing. -/
def resolvedOf : Entry → Nat
  | .file s => s
  | .slinkFile s => s
  | .dir cs => resolvedSum cs
  | _ => 0

/-- Amended spec-side quantity: recursive sum over a directory listing of the
sizes of everything that resolves to a regular file. -/
def resolvedSum : Entries → Nat
  | .nil => 0
  | .cons _ e rest => resolvedOf e + resolvedSum rest

end

/-- Sum of the sizes of everything strictly under a path that resolves to a
regular file (the amended claim C1 quantity). -/
def resolvedTotalAt (fs : Entry) (p : FsPath) : Nat :=
  match lookup fs p with
  | some (.dir cs) => resolvedSum cs
  | _ => 0

/-- What lies strictly below one entry, counted the amended-spec way: the
contents of a directory, nothing below anything else. -/
def contentsResolved : Entry → Nat
  | .dir cs => resolvedSum cs
  | _ => 0

/-- Whether a recorded step is the load call. -/
def isLoad : Op → Bool
  | .loadCall _ => true
  | _ => false

/-! ### Concrete data for witnesses and counterexamples

`demoListing` mirrors the spec's example scenario: a two-file exported
directory totalling 150 bytes. -/

/-- A two-file exporter output, 150 bytes in total. -/
def demoListing : Entries :=
  .cons "model.json" (.file 100) (.cons "weights.bin" (.file 50) .nil)

/-- An exporter output holding a 3-byte regular file and a symbolic link to a
5-byte regular file. -/
def symListing : Entries :=
  .cons "weights.bin" (.file 3) (.cons "link.bin" (.slinkFile 5) .nil)

/-- An initial filesystem: just the working directory. -/
def demoFs : Entry := .dir (.cons "work" (.dir .nil) .nil)

/-- An initial filesystem where `out/model` already exists with stale
content. -/
def preFs : Entry :=
  .dir (.cons "work" (.dir .nil)
    (.cons "out" (.dir (.cons "model" (.dir (.cons "stale.txt" (.file 7) .nil))
      .nil)) .nil))

/-- A loader accepting every identifier. -/
def demoLoad : String → Bool := fun _ => true

/-- A loader accepting no identifier. -/
def noLoad : String → Bool := fun _ => false

/-- The spec's example scenario: export `yolo26s` to `out/model`. -/
def demoRun : RunOutcome :=
  export_model demoLoad (some demoListing) ["work"] "yolo26s" ["out", "model"] demoFs

/-- The example scenario run a second time, from the first run's final
filesystem. -/
def demoRunTwice : RunOutcome :=
  export_model demoLoad (some demoListing) ["work"] "yolo26s" ["out", "model"]
    demoRun.fs

/-- A run whose exported directory holds a symbolic link to a regular file. -/
def symRun : RunOutcome :=
  export_model demoLoad (some symListing) ["work"] "m" ["out"] demoFs

/-- The example scenario on top of a pre-existing `out/model`. -/
def preRun : RunOutcome :=
  export_model demoLoad (some demoListing) ["work"] "yolo26s" ["out", "model"] preFs

/-- A failing run: the destination is the exporter's own output directory, so
the remove step deletes the move's source and the move fails. -/
def failRun : RunOutcome :=
  export_model demoLoad (some demoListing) ["work"] "m" ["work", "m_web_model"] demoFs

/-- A run whose load step fails. -/
def loadFailRun : RunOutcome :=
  export_model noLoad (some demoListing) ["work"] "m" ["out"] demoFs

/-! ### Lemmas about the children operations -/

namespace Entries

theorem findChild_setChild_self : ∀ (cs : Entries) (c : String) (e : Entry),
    (cs.setChild c e).findChild c = some e
  | .nil, c, e => by simp [setChild, findChild]
  | .cons n e' rest, c, e => by
      by_cases h : n = c
      · simp [setChild, h, findChild]
      · simp [setChild, h, findChild, findChild_setChild_self rest c e]

theorem findChild_setChild_ne : ∀ (cs : Entries) {c d : String} (e : Entry),
    d ≠ c → (cs.setChild c e).findChild d = cs.findChild d
  | .nil, c, d, e, h => by simp [setChild, findChild, Ne.symm h]
  | .cons n e' rest, c, d, e, h => by
      by_cases hn : n = c
      · subst hn
        simp [setChild, findChild, Ne.symm h]
      · by_cases hd : n = d
        · subst hd
          simp [setChild, findChild, hn]
        · simp [setChild, findChild, hn, hd, findChild_setChild_ne rest e h]

theorem findChild_removeChild_self : ∀ (cs : Entries) (c : String),
    (cs.removeChild c).findChild c = none
  | .nil, c => by simp [removeChild, findChild]
  | .cons n e rest, c => by
      by_cases h : n = c
      · simp [removeChild, h, findChild_removeChild_self rest c]
      · simp [removeChild, findChild, h, findChild_removeChild_self rest c]

theorem findChild_removeChild_ne : ∀ (cs : Entries) {c d : String},
    d ≠ c → (cs.removeChild c).findChild d = cs.findChild d
  | .nil, c, d, h => by simp [removeChild, findChild]
  | .cons n e rest, c, d, h => by
      by_cases hn : n = c
      · subst hn
        simp [removeChild, findChild, Ne.symm h, findChild_removeChild_ne rest h]
      · by_cases hd : n = d
        · subst hd
          simp [removeChild, findChild, hn]
        · simp [removeChild, findChild, hn, hd, findChild_removeChild_ne rest h]

end Entries

/-! ### Lemmas about path resolution -/

theorem lookup_append (p q : FsPath) (fs : Entry) :
    lookup fs (p ++ q) = (lookup fs p).bind (fun e => lookup e q) := by
  induction p generalizing fs with
  | nil => simp [lookup]
  | cons c rest ih =>
      cases fs with
      | dir cs =>
          simp only [List.cons_append, lookup]
          cases cs.findChild c with
          | some sub => simpa using ih sub
          | none => simp
      | file s => simp [lookup]
      | slinkFile s => simp [lookup]
      | slinkDir => simp [lookup]
      | slinkBroken => simp [lookup]

theorem lookup_dirnil_cons (c : String) (q : FsPath) :
    lookup (.dir .nil) (c :: q) = none := by
  simp [lookup, Entries.findChild]

/-- One-step unfolding of `lookup` at a directory, keeping the recursive call
folded. -/
theorem lookup_cons (cs : Entries) (c : String) (p : FsPath) :
    lookup (.dir cs) (c :: p) =
      match cs.findChild c with
      | some sub => lookup sub p
      | none => none := rfl

/-! ### Lemmas about `setAt` -/

theorem setAt_lookup_self : ∀ (p : FsPath) (fs fs' e : Entry),
    setAt fs p e = some fs' → lookup fs' p = some e
  | [], fs, fs', e, h => by
      simp [setAt] at h
      subst h
      rfl
  | [c], fs, fs', e, h => by
      cases fs <;> simp [setAt] at h
      rename_i cs
      subst h
      simp [lookup, Entries.findChild_setChild_self]
  | c :: c' :: rest, fs, fs', e, h => by
      cases fs <;> simp [setAt] at h
      rename_i cs
      split at h
      · rename_i sub hf
        rw [Option.map_eq_some'] at h
        obtain ⟨sub', hs, rfl⟩ := h
        simpa [lookup, Entries.findChild_setChild_self] using
          setAt_lookup_self (c' :: rest) sub sub' e hs
      · exact Option.noConfusion h

theorem setAt_below_none : ∀ (p : FsPath) (x : String) (q : FsPath)
    (fs e : Entry), lookup fs p = none → setAt fs (p ++ x :: q) e = none
  | [], x, q, fs, e, h => by simp [lookup] at h
  | [c], x, q, fs, e, h => by
      cases fs <;> simp [setAt]
      rename_i cs
      simp [lookup] at h
      split at h
      · exact Option.noConfusion h
      · rename_i hf
        simp [setAt, hf]
  | c :: c' :: rest, x, q, fs, e, h => by
      cases fs <;> simp [setAt]
      rename_i cs
      rw [lookup_cons] at h
      split at h
      · rename_i sub hf
        have hrec := setAt_below_none (c' :: rest) x q sub e h
        simp [setAt, hf]
        simpa using hrec
      · rename_i hf
        simp [setAt, hf]

theorem setAt_dirsExist : ∀ (p q : FsPath) (fs fs' e : Entry),
    setAt fs p e = some fs' → dirsExist fs q = true →
    (¬ ∃ s, q = p ++ s) → dirsExist fs' q = true
  | [], q, fs, fs', e, h, hd, hq => by
      exact absurd ⟨q, rfl⟩ hq
  | [c], q, fs, fs', e, h, hd, hq => by
      cases fs <;> simp [setAt] at h
      rename_i cs
      subst h
      match q with
      | [] => simp [dirsExist]
      | d :: q' =>
          have hdc : d ≠ c := by
            rintro rfl
            exact hq ⟨q', rfl⟩
          simp only [dirsExist] at hd ⊢
          rw [Entries.findChild_setChild_ne cs e hdc]
          exact hd
  | c :: c' :: rest, q, fs, fs', e, h, hd, hq => by
      cases fs <;> simp [setAt] at h
      rename_i cs
      split at h
      · rename_i sub hf
        rw [Option.map_eq_some'] at h
        obtain ⟨sub', hs, rfl⟩ := h
        match q with
        | [] => simp [dirsExist]
        | d :: q' =>
            by_cases hdc : d = c
            · subst hdc
              simp only [dirsExist] at hd ⊢
              rw [Entries.findChild_setChild_self]
              rw [hf] at hd
              refine setAt_dirsExist (c' :: rest) q' sub sub' e hs hd ?_
              rintro ⟨s, rfl⟩
              exact hq ⟨s, rfl⟩
            · simp only [dirsExist] at hd ⊢
              rw [Entries.findChild_setChild_ne cs sub' hdc]
              exact hd
      · exact Option.noConfusion h

/-! ### Lemmas about `removeAt` -/

theorem removeAt_lookup_self : ∀ (p : FsPath) (fs fs' : Entry),
    removeAt fs p = some fs' → lookup fs' p = none
  | [], fs, fs', h => by simp [removeAt] at h
  | [c], fs, fs', h => by
      cases fs <;> simp [removeAt] at h
      rename_i cs
      split at h
      · simp at h
        subst h
        simp [lookup, Entries.findChild_removeChild_self]
      · exact Option.noConfusion h
  | c :: c' :: rest, fs, fs', h => by
      cases fs <;> simp [removeAt] at h
      rename_i cs
      split at h
      · rename_i sub hf
        rw [Option.map_eq_some'] at h
        obtain ⟨sub', hs, rfl⟩ := h
        rw [lookup_cons]
        rw [Entries.findChild_setChild_self]
        exact removeAt_lookup_self (c' :: rest) sub sub' hs
      · exact Option.noConfusion h

theorem removeAt_lookup_frame : ∀ (p q : FsPath) (fs fs' : Entry),
    removeAt fs p = some fs' → (¬ ∃ s, q = p ++ s) → (¬ ∃ s, p = q ++ s) →
    lookup fs' q = lookup fs q
  | [], q, fs, fs', h, hq1, hq2 => by simp [removeAt] at h
  | [c], q, fs, fs', h, hq1, hq2 => by
      cases fs <;> simp [removeAt] at h
      rename_i cs
      split at h
      · simp at h
        subst h
        match q with
        | [] => exact absurd ⟨[c], rfl⟩ hq2
        | d :: q' =>
            have hdc : d ≠ c := by
              rintro rfl
              exact hq1 ⟨q', rfl⟩
            rw [lookup_cons, lookup_cons, Entries.findChild_removeChild_ne cs hdc]
      · exact Option.noConfusion h
  | c :: c' :: rest, q, fs, fs', h, hq1, hq2 => by
      cases fs <;> simp [removeAt] at h
      rename_i cs
      split at h
      · rename_i sub hf
        rw [Option.map_eq_some'] at h
        obtain ⟨sub', hs, rfl⟩ := h
        match q with
        | [] => exact absurd ⟨c :: c' :: rest, rfl⟩ hq2
        | d :: q' =>
            by_cases hdc : d = c
            · subst hdc
              rw [lookup_cons, lookup_cons, Entries.findChild_setChild_self, hf]
              refine removeAt_lookup_frame (c' :: rest) q' sub sub' hs ?_ ?_
              · rintro ⟨s, rfl⟩
                exact hq1 ⟨s, rfl⟩
              · rintro ⟨s, hsx⟩
                exact hq2 ⟨s, by rw [hsx]; rfl⟩
            · rw [lookup_cons, lookup_cons, Entries.findChild_setChild_ne cs sub' hdc]
      · exact Option.noConfusion h

theorem removeAt_dirsExist : ∀ (p q : FsPath) (fs fs' : Entry),
    removeAt fs p = some fs' → dirsExist fs q = true →
    (¬ ∃ s, q = p ++ s) → dirsExist fs' q = true
  | [], q, fs, fs', h, hd, hq => by simp [removeAt] at h
  | [c], q, fs, fs', h, hd, hq => by
      cases fs <;> simp [removeAt] at h
      rename_i cs
      split at h
      · simp at h
        subst h
        match q with
        | [] => simp [dirsExist]
        | d :: q' =>
            have hdc : d ≠ c := by
              rintro rfl
              exact hq ⟨q', rfl⟩
            simp only [dirsExist] at hd ⊢
            rw [Entries.findChild_removeChild_ne cs hdc]
            exact hd
      · exact Option.noConfusion h
  | c :: c' :: rest, q, fs, fs', h, hd, hq => by
      cases fs <;> simp [removeAt] at h
      rename_i cs
      split at h
      · rename_i sub hf
        rw [Option.map_eq_some'] at h
        obtain ⟨sub', hs, rfl⟩ := h
        match q with
        | [] => simp [dirsExist]
        | d :: q' =>
            by_cases hdc : d = c
            · subst hdc
              simp only [dirsExist] at hd ⊢
              rw [Entries.findChild_setChild_self]
              rw [hf] at hd
              refine removeAt_dirsExist (c' :: rest) q' sub sub' hs hd ?_
              rintro ⟨s, rfl⟩
              exact hq ⟨s, rfl⟩
            · simp only [dirsExist] at hd ⊢
              rw [Entries.findChild_setChild_ne cs sub' hdc]
              exact hd
      · exact Option.noConfusion h

/-! ### Lemmas about `mkdirParents` -/

theorem mkdirParents_dirsExist : ∀ (p : FsPath) (fs fs' : Entry),
    mkdirParents fs p = some fs' → dirsExist fs' p = true
  | [], fs, fs', h => by
      cases fs <;> simp [mkdirParents] at h
      subst h
      simp [dirsExist]
  | c :: rest, fs, fs', h => by
      cases fs <;> simp [mkdirParents] at h
      rename_i cs
      split at h
      · rename_i sub' hs
        simp at h
        subst h
        simp only [dirsExist]
        rw [Entries.findChild_setChild_self]
        exact mkdirParents_dirsExist rest _ sub' hs
      · exact Option.noConfusion h

theorem mkdirParents_lookup_frame : ∀ (p q : FsPath) (fs fs' : Entry),
    mkdirParents fs p = some fs' → (¬ ∃ s, p = q ++ s) →
    lookup fs' q = lookup fs q
  | [], q, fs, fs', h, hq => by
      cases fs <;> simp [mkdirParents] at h
      subst h
      rfl
  | c :: rest, q, fs, fs', h, hq => by
      cases fs <;> simp [mkdirParents] at h
      rename_i cs
      split at h
      · rename_i sub' hs
        simp at h
        subst h
        match q with
        | [] => exact absurd ⟨c :: rest, rfl⟩ hq
        | d :: q' =>
            by_cases hdc : d = c
            · subst hdc
              rw [lookup_cons, lookup_cons, Entries.findChild_setChild_self]
              have hq' : ¬ ∃ s, rest = q' ++ s := by
                rintro ⟨s, rfl⟩
                exact hq ⟨s, rfl⟩
              cases hf : cs.findChild d with
              | some sub =>
                  simp only [hf] at hs ⊢
                  exact mkdirParents_lookup_frame rest q' sub sub' hs hq'
              | none =>
                  simp only [hf] at hs ⊢
                  rw [mkdirParents_lookup_frame rest q' _ sub' hs hq']
                  match q' with
                  | [] => exact absurd ⟨rest, rfl⟩ hq'
                  | d2 :: q'' => exact lookup_dirnil_cons d2 q''
            · rw [lookup_cons, lookup_cons, Entries.findChild_setChild_ne cs sub' hdc]
      · exact Option.noConfusion h

/-! ### The script's sum against the structural sums -/

mutual

theorem rglob_sum_entry : ∀ (e : Entry),
    (((rglobAll e).filter isFile).map stSize).sum = contentsResolved e
  | .file s => by simp [rglobAll, contentsResolved]
  | .slinkFile s => by simp [rglobAll, contentsResolved]
  | .slinkDir => by simp [rglobAll, contentsResolved]
  | .slinkBroken => by simp [rglobAll, contentsResolved]
  | .dir cs => by
      simp only [rglobAll, contentsResolved]
      exact rglob_sum_entries cs

theorem rglob_sum_entries : ∀ (cs : Entries),
    (((rglobEntries cs).filter isFile).map stSize).sum = resolvedSum cs
  | .nil => by simp [rglobEntries, resolvedSum]
  | .cons n e rest => by
      have he := rglob_sum_entry e
      have hr := rglob_sum_entries rest
      cases e <;>
        simp [rglobEntries, resolvedSum, resolvedOf, isFile, stSize,
          rglobAll, contentsResolved] at he ⊢ <;>
        omega

end

/-- The script's sum on a directory agrees with the structural
"everything that resolves to a regular file" sum. -/
theorem codeTotal_dir (cs : Entries) : codeTotal (.dir cs) = resolvedSum cs := by
  simpa [codeTotal, contentsResolved] using rglob_sum_entry (.dir cs)

/-! ### Path bookkeeping facts -/

theorem dropLast_not_extends (p : FsPath) (hp : p ≠ []) :
    ¬ ∃ s, p.dropLast = p ++ s := by
  rintro ⟨s, hs⟩
  have hlen := congrArg List.length hs
  have hpos : 0 < p.length := List.length_pos.mpr hp
  simp [List.length_dropLast] at hlen
  omega

theorem dropLast_extends_strict (q p s : FsPath) (hq : q ≠ [])
    (h : q.dropLast = p ++ s) : ∃ x s', q = p ++ x :: s' := by
  have hgl : q.dropLast ++ [q.getLast hq] = q := List.dropLast_append_getLast hq
  rw [h] at hgl
  rw [List.append_assoc] at hgl
  cases hs : s ++ [q.getLast hq] with
  | nil => simp at hs
  | cons x s' =>
      rw [hs] at hgl
      exact ⟨x, s', hgl.symm⟩

/-! ### Anatomy of the fallible filesystem steps -/

theorem rmtreeFs_some (fs fs2 : Entry) (p : FsPath)
    (h : rmtreeFs fs p = some fs2) :
    (∃ u, lookup fs p = some (.dir u)) ∧ removeAt fs p = some fs2 := by
  unfold rmtreeFs at h
  split at h
  · rename_i u hl
    exact ⟨⟨u, hl⟩, h⟩
  · exact Option.noConfusion h

theorem moveFs_some (fs fs4 : Entry) (src dst : FsPath)
    (h : moveFs fs src dst = some fs4) :
    ∃ e fs', lookup fs src = some e ∧ removeAt fs src = some fs' ∧
      lookup fs' dst = none ∧ setAt fs' dst e = some fs4 := by
  unfold moveFs at h
  split at h
  · exact Option.noConfusion h
  · rename_i e hl
    split at h
    · exact Option.noConfusion h
    · rename_i fs' hrm
      split at h
      · exact Option.noConfusion h
      · rename_i hdst
        exact ⟨e, fs', hl, hrm, hdst, h⟩

/-- Anatomy of a successful tail phase (`mkdir` of the parent, the move, and
the size report). -/
theorem movePhase_ok_spec (ed out : FsPath) (tr : List Op) (fsIn : Entry)
    (d : FsPath) (n : Nat)
    (h : (movePhase ed out tr fsIn).result = .ok (d, n)) :
    ∃ fs3 e0 fs3' fs4,
      mkdirParents fsIn out.dropLast = some fs3 ∧
      lookup fs3 ed = some e0 ∧ removeAt fs3 ed = some fs3' ∧
      lookup fs3' out = none ∧ setAt fs3' out e0 = some fs4 ∧
      (movePhase ed out tr fsIn).fs = fs4 ∧
      d = out ∧ n = totalSizeAt fs4 out ∧
      (movePhase ed out tr fsIn).trace =
        tr ++ [Op.mkdirOp out.dropLast, Op.moveOp ed out] := by
  unfold movePhase at h ⊢
  split at h
  · exact Except.noConfusion h
  · rename_i fs3 hmk
    split at h
    · exact Except.noConfusion h
    · rename_i fs4 hmv
      obtain ⟨hd, hn⟩ : d = out ∧ n = totalSizeAt fs4 out := by
        have := h
        simp at this
        exact ⟨this.1.symm, this.2.symm⟩
      obtain ⟨e0, fs3', hl, hrm, hdst, hset⟩ := moveFs_some fs3 fs4 ed out hmv
      refine ⟨fs3, e0, fs3', fs4, hmk, hl, hrm, hdst, hset, ?_, hd, hn, ?_⟩
      · simp [hmk, hmv]
      · simp [hmk, hmv]

theorem removeAt_some_ne_nil (fs fs' : Entry) (p : FsPath)
    (h : removeAt fs p = some fs') : p ≠ [] := by
  rintro rfl
  simp [removeAt] at h

theorem totalSizeAt_eq_of_lookup (fs e : Entry) (p : FsPath)
    (h : lookup fs p = some e) : totalSizeAt fs p = codeTotal e := by
  unfold totalSizeAt
  rw [h]

theorem exportDirPath_ne_nil (cwd : FsPath) (m : String) :
    exportDirPath cwd m ≠ [] := by
  simp [exportDirPath]

/-- In a successful tail phase, no strict extension of the source survives as
the destination: moving a directory strictly into itself cannot succeed. -/
theorem movePhase_not_strict (ed out : FsPath) (fs3 e0 fs3' fs4 : Entry)
    (hrm : removeAt fs3 ed = some fs3')
    (hset : setAt fs3' out e0 = some fs4) :
    ¬ ∃ x s, out = ed ++ x :: s := by
  rintro ⟨x, s, rfl⟩
  have hnone : lookup fs3' ed = none := removeAt_lookup_self ed fs3 fs3' hrm
  have := setAt_below_none ed x s fs3' e0 hnone
  rw [hset] at this
  exact Option.noConfusion this

/-- Assembles the success facts of the tail phase once the branch-specific
argument `hkey` pins the moved entry down to the exported listing. -/
theorem movePhase_assemble (ed out : FsPath) (tr : List Op) (fsIn : Entry)
    (t : Entries) (d : FsPath) (n : Nat)
    (h : (movePhase ed out tr fsIn).result = .ok (d, n))
    (hkey : (¬ ∃ x s, out = ed ++ x :: s) → out ≠ [] → ∀ fs3 e0,
      mkdirParents fsIn out.dropLast = some fs3 → lookup fs3 ed = some e0 →
      e0 = .dir t) :
    d = out ∧
    lookup (movePhase ed out tr fsIn).fs out = some (.dir t) ∧
    n = codeTotal (.dir t) ∧
    dirsExist (movePhase ed out tr fsIn).fs out.dropLast = true ∧
    (movePhase ed out tr fsIn).trace =
      tr ++ [Op.mkdirOp out.dropLast, Op.moveOp ed out] := by
  obtain ⟨fs3, e0, fs3', fs4, hmk, hlk, hrm2, hdst, hset2, hfs, hd, hn, htr⟩ :=
    movePhase_ok_spec ed out tr fsIn d n h
  have out_ne : out ≠ [] := by
    rintro rfl
    simp [lookup] at hdst
  have hstrict := movePhase_not_strict ed out fs3 e0 fs3' fs4 hrm2 hset2
  have he0 : e0 = .dir t := hkey hstrict out_ne fs3 e0 hmk hlk
  subst he0
  have hframe_cond : ¬ ∃ s, out.dropLast = ed ++ s := by
    rintro ⟨s, hs⟩
    exact hstrict (dropLast_extends_strict out ed s out_ne hs)
  have hlook4 : lookup fs4 out = some (.dir t) :=
    setAt_lookup_self out fs3' fs4 (.dir t) hset2
  refine ⟨hd, ?_, ?_, ?_, htr⟩
  · rw [hfs]
    exact hlook4
  · rw [hn]
    exact totalSizeAt_eq_of_lookup fs4 (.dir t) out hlook4
  · rw [hfs]
    have d3 : dirsExist fs3 out.dropLast = true :=
      mkdirParents_dirsExist out.dropLast fsIn fs3 hmk
    have d3' : dirsExist fs3' out.dropLast = true :=
      removeAt_dirsExist ed out.dropLast fs3 fs3' hrm2 d3 hframe_cond
    exact setAt_dirsExist out out.dropLast fs3' fs4 (.dir t) hset2 d3'
      (dropLast_not_extends out out_ne)

/-- Anatomy of a successful run: the exporter produced a listing `t`, the
reported directory is `output_dir`, the final filesystem holds exactly
`Entry.dir t` at `output_dir`, the reported size is the script's sum over that
listing, the whole parent chain of `output_dir` consists of directories, and
the run ends with the move from the conventional export directory. -/
theorem export_model_ok_spec (loadOk : String → Bool) (exportOut : Option Entries)
    (cwd : FsPath) (m : String) (out : FsPath) (fs : Entry) (d : FsPath) (n : Nat)
    (h : (export_model loadOk exportOut cwd m out fs).result = .ok (d, n)) :
    ∃ t, exportOut = some t ∧ d = out ∧
      lookup (export_model loadOk exportOut cwd m out fs).fs out = some (.dir t) ∧
      n = codeTotal (.dir t) ∧
      dirsExist (export_model loadOk exportOut cwd m out fs).fs out.dropLast = true ∧
      (export_model loadOk exportOut cwd m out fs).trace.getLast? =
        some (.moveOp (exportDirPath cwd m) out) := by
  by_cases hload : loadOk (m ++ ".pt") = false
  · simp [export_model, hload] at h
  · cases ho : exportOut with
    | none =>
        rw [ho] at h
        simp [export_model, hload] at h
    | some t =>
        rw [ho] at h
        refine ⟨t, rfl, ?_⟩
        cases hset : setAt fs (exportDirPath cwd m) (.dir t) with
        | none =>
            simp [export_model, hload, hset] at h
        | some fs1 =>
            by_cases hex : existsFollow fs1 out = true
            · cases hrm : rmtreeFs fs1 out with
              | none =>
                  simp [export_model, hload, hset, hex, hrm] at h
              | some fs2 =>
                  obtain ⟨⟨u, hlu⟩, hrm1⟩ := rmtreeFs_some fs1 fs2 out hrm
                  have hred : export_model loadOk (some t) cwd m out fs =
                      movePhase (exportDirPath cwd m) out
                        ([Op.loadCall (m ++ ".pt"), Op.exportCall,
                          Op.rmtreeOp out]) fs2 := by
                    simp [export_model, hload, hset, hex, hrm]
                  rw [hred] at h ⊢
                  have out_ne0 : out ≠ [] := removeAt_some_ne_nil fs1 fs2 out hrm1
                  obtain ⟨hd, hlook, hn, hdirs, htr⟩ :=
                    movePhase_assemble (exportDirPath cwd m) out _ fs2 t d n h
                      (by
                        intro hstrict out_ne fs3 e0 hmk hlk
                        by_cases hbel : ∃ s, exportDirPath cwd m = out ++ s
                        · obtain ⟨s, hbs⟩ := hbel
                          have h2 : lookup fs2 out = none :=
                            removeAt_lookup_self out fs1 fs2 hrm1
                          have h3 : lookup fs3 out = none := by
                            rw [mkdirParents_lookup_frame out.dropLast out fs2 fs3 hmk
                              (dropLast_not_extends out out_ne)]
                            exact h2
                          have h4 : lookup fs3 (out ++ s) = none := by
                            rw [lookup_append, h3]
                            rfl
                          rw [hbs, h4] at hlk
                          exact Option.noConfusion hlk
                        · have hbel2 : ¬ ∃ s, out = exportDirPath cwd m ++ s := by
                            rintro ⟨s, hs⟩
                            cases s with
                            | nil =>
                                exact hbel ⟨[], by simp [hs]⟩
                            | cons x s' => exact hstrict ⟨x, s', hs⟩
                          have h2 : lookup fs2 (exportDirPath cwd m) = some (.dir t) := by
                            rw [removeAt_lookup_frame out (exportDirPath cwd m) fs1 fs2
                              hrm1 hbel hbel2]
                            exact setAt_lookup_self (exportDirPath cwd m) fs fs1 (.dir t) hset
                          have hframe_cond : ¬ ∃ s, out.dropLast = exportDirPath cwd m ++ s := by
                            rintro ⟨s, hs⟩
                            exact hstrict
                              (dropLast_extends_strict out (exportDirPath cwd m) s out_ne hs)
                          rw [mkdirParents_lookup_frame out.dropLast (exportDirPath cwd m)
                            fs2 fs3 hmk hframe_cond, h2] at hlk
                          exact (Option.some.injEq _ _ ▸ hlk).symm)
                  refine ⟨hd, hlook, hn, hdirs, ?_⟩
                  rw [htr]
                  rw [show ([Op.loadCall (m ++ ".pt"), Op.exportCall, Op.rmtreeOp out] ++
                      [Op.mkdirOp out.dropLast, Op.moveOp (exportDirPath cwd m) out]) =
                      ([Op.loadCall (m ++ ".pt"), Op.exportCall, Op.rmtreeOp out,
                        Op.mkdirOp out.dropLast] ++ [Op.moveOp (exportDirPath cwd m) out])
                    from rfl]
                  exact List.getLast?_concat _
            · have hred : export_model loadOk (some t) cwd m out fs =
                  movePhase (exportDirPath cwd m) out
                    ([Op.loadCall (m ++ ".pt"), Op.exportCall]) fs1 := by
                simp [export_model, hload, hset, hex]
              rw [hred] at h ⊢
              obtain ⟨hd, hlook, hn, hdirs, htr⟩ :=
                movePhase_assemble (exportDirPath cwd m) out _ fs1 t d n h
                  (by
                    intro hstrict out_ne fs3 e0 hmk hlk
                    have hframe_cond : ¬ ∃ s, out.dropLast = exportDirPath cwd m ++ s := by
                      rintro ⟨s, hs⟩
                      exact hstrict
                        (dropLast_extends_strict out (exportDirPath cwd m) s out_ne hs)
                    rw [mkdirParents_lookup_frame out.dropLast (exportDirPath cwd m)
                      fs1 fs3 hmk hframe_cond,
                      setAt_lookup_self (exportDirPath cwd m) fs fs1 (.dir t) hset] at hlk
                    exact (Option.some.injEq _ _ ▸ hlk).symm)
              refine ⟨hd, hlook, hn, hdirs, ?_⟩
              rw [htr]
              rw [show ([Op.loadCall (m ++ ".pt"), Op.exportCall] ++
                  [Op.mkdirOp out.dropLast, Op.moveOp (exportDirPath cwd m) out]) =
                  ([Op.loadCall (m ++ ".pt"), Op.exportCall, Op.mkdirOp out.dropLast] ++
                    [Op.moveOp (exportDirPath cwd m) out]) from rfl]
              exact List.getLast?_concat _

/-- A failed tail phase never touches the destination path: its lookup is what
it was when the phase began. -/
theorem movePhase_error_lookup (ed out : FsPath) (tr : List Op) (fsIn : Entry)
    (err : ExportError) (hout : out ≠ [])
    (h : (movePhase ed out tr fsIn).result = .error err) :
    lookup (movePhase ed out tr fsIn).fs out = lookup fsIn out := by
  cases hmk : mkdirParents fsIn out.dropLast with
  | none => simp [movePhase, hmk]
  | some fs3 =>
      cases hmv : moveFs fs3 ed out with
      | none =>
          simp only [movePhase, hmk, hmv]
          exact mkdirParents_lookup_frame out.dropLast out fsIn fs3 hmk
            (dropLast_not_extends out hout)
      | some fs4 => simp [movePhase, hmk, hmv] at h

/-- The tail phase appends at most the `mkdir` and `move` records to the
trace. -/
theorem movePhase_trace_cases (ed out : FsPath) (tr : List Op) (fsIn : Entry) :
    (movePhase ed out tr fsIn).trace = tr ∨
    (movePhase ed out tr fsIn).trace = tr ++ [Op.mkdirOp out.dropLast] ∨
    (movePhase ed out tr fsIn).trace =
      tr ++ [Op.mkdirOp out.dropLast, Op.moveOp ed out] := by
  cases hmk : mkdirParents fsIn out.dropLast with
  | none => exact Or.inl (by simp [movePhase, hmk])
  | some fs3 =>
      cases hmv : moveFs fs3 ed out with
      | none => exact Or.inr (Or.inl (by simp [movePhase, hmk, hmv]))
      | some fs4 => exact Or.inr (Or.inr (by simp [movePhase, hmk, hmv]))

/-! ## The claims -/

/-- C1 fails as stated: on a run whose exported directory holds a symbolic
link to a 5-byte regular file next to a 3-byte regular file, the reported
total is 8, while the sum of the byte sizes of the regular files under the
final directory, symbolic links excluded, is 3. -/
theorem C1_size_claim_counterexample :
    symRun.result = .ok (["out"], 8) ∧
    specRegularTotalAt symRun.fs ["out"] ≠ 8 := by
  exact ⟨rfl, by decide⟩

/-- C1 (amended): after a successful run, the reported total equals the sum of
the sizes of everything under the final directory that resolves to a regular
file — regular files, and symbolic links to regular files counted at the
target's size; directories, links to directories and broken links are
excluded. -/
theorem C1_total_counts_resolved (l : String → Bool) (eo : Option Entries)
    (cwd : FsPath) (m : String) (out : FsPath) (fs : Entry) (d : FsPath) (n : Nat)
    (h : (export_model l eo cwd m out fs).result = .ok (d, n)) :
    n = resolvedTotalAt (export_model l eo cwd m out fs).fs d := by
  obtain ⟨t, ho, hd, hlook, hn, hdirs, htr⟩ :=
    export_model_ok_spec l eo cwd m out fs d n h
  subst hd
  rw [hn, codeTotal_dir]
  unfold resolvedTotalAt
  rw [hlook]

/-- Witness for C1: the example scenario reports 150 bytes, which is the
resolved-regular-file sum of the final directory. -/
theorem C1_total_counts_resolved_witness :
    demoRun.result = .ok (["out", "model"], 150) ∧
    (150 : Nat) = resolvedTotalAt demoRun.fs ["out", "model"] :=
  ⟨rfl, C1_total_counts_resolved demoLoad (some demoListing) ["work"] "yolo26s"
    ["out", "model"] demoFs ["out", "model"] 150 rfl⟩

/-- C2: after a successful run, `output_dir` holds exactly the directory the
exporter produced — for every pre-existing filesystem, so nothing that was
there before survives. -/
theorem C2_exact_contents (l : String → Bool) (eo : Option Entries)
    (cwd : FsPath) (m : String) (out : FsPath) (fs : Entry) (t : Entries)
    (d : FsPath) (n : Nat) (ht : eo = some t)
    (h : (export_model l eo cwd m out fs).result = .ok (d, n)) :
    lookup (export_model l eo cwd m out fs).fs out = some (.dir t) := by
  obtain ⟨t', ht', hd, hlook, _, _, _⟩ :=
    export_model_ok_spec l eo cwd m out fs d n h
  rw [ht] at ht'
  injection ht' with he
  subst he
  exact hlook

/-- Witness for C2: on top of a pre-existing `out/model` with stale content,
the final directory is exactly the exported listing. -/
theorem C2_exact_contents_witness :
    preRun.result = .ok (["out", "model"], 150) ∧
    lookup preRun.fs ["out", "model"] = some (.dir demoListing) :=
  ⟨rfl, C2_exact_contents demoLoad (some demoListing) ["work"] "yolo26s"
    ["out", "model"] preFs demoListing ["out", "model"] 150 rfl rfl⟩

/-- C3: a successful run reports the pair `(output_dir, total)`, where the
total is the script's recursive size sum over the final filesystem at
`output_dir`. -/
theorem C3_result_shape (l : String → Bool) (eo : Option Entries)
    (cwd : FsPath) (m : String) (out : FsPath) (fs : Entry) (d : FsPath) (n : Nat)
    (h : (export_model l eo cwd m out fs).result = .ok (d, n)) :
    d = out ∧ n = totalSizeAt (export_model l eo cwd m out fs).fs out := by
  obtain ⟨t, ho, hd, hlook, hn, _, _⟩ :=
    export_model_ok_spec l eo cwd m out fs d n h
  subst hd
  refine ⟨rfl, ?_⟩
  rw [hn, totalSizeAt_eq_of_lookup _ _ _ hlook]

/-- Witness for C3: the example scenario reports its own directory and the
recursive sum of the final tree. -/
theorem C3_result_shape_witness :
    demoRun.result = .ok (["out", "model"], 150) ∧
    (["out", "model"] : FsPath) = ["out", "model"] ∧
    (150 : Nat) = totalSizeAt demoRun.fs ["out", "model"] :=
  ⟨rfl, C3_result_shape demoLoad (some demoListing) ["work"] "yolo26s"
    ["out", "model"] demoFs ["out", "model"] 150 rfl⟩

/-- C4 fails as stated: on a run with a pre-existing destination, the remove
of `output_dir` is performed before the parent `mkdir`, not after it; the
trace records the remove at position 2 and the mkdir at position 3. -/
theorem C4_order_counterexample :
    preRun.trace = [Op.loadCall "yolo26s.pt", Op.exportCall,
      Op.rmtreeOp ["out", "model"], Op.mkdirOp ["out"],
      Op.moveOp ["work", "yolo26s_web_model"] ["out", "model"]] ∧
    ¬ (List.indexOf (Op.mkdirOp ["out"]) preRun.trace <
        List.indexOf (Op.rmtreeOp ["out", "model"]) preRun.trace) := by
  exact ⟨rfl, by decide⟩

/-- C4 (amended): the operation removes `output_dir` first (when that step is
performed), then ensures the parent path exists, and only then moves: a
successful run that performed the remove has exactly the trace
load, export, remove, mkdir-parent, move, in that order. -/
theorem C4_remove_then_mkdir_then_move (l : String → Bool) (eo : Option Entries)
    (cwd : FsPath) (m : String) (out : FsPath) (fs : Entry) (d : FsPath) (n : Nat)
    (h : (export_model l eo cwd m out fs).result = .ok (d, n))
    (hmem : Op.rmtreeOp out ∈ (export_model l eo cwd m out fs).trace) :
    (export_model l eo cwd m out fs).trace =
      [Op.loadCall (m ++ ".pt"), Op.exportCall, Op.rmtreeOp out,
        Op.mkdirOp out.dropLast, Op.moveOp (exportDirPath cwd m) out] := by
  by_cases hload : l (m ++ ".pt") = false
  · simp [export_model, hload] at h
  · cases ho : eo with
    | none =>
        subst ho
        simp [export_model, hload] at h
    | some t =>
        subst ho
        cases hset : setAt fs (exportDirPath cwd m) (.dir t) with
        | none => simp [export_model, hload, hset] at h
        | some fs1 =>
            by_cases hex : existsFollow fs1 out = true
            · cases hrm : rmtreeFs fs1 out with
              | none => simp [export_model, hload, hset, hex, hrm] at h
              | some fs2 =>
                  have hred : export_model l (some t) cwd m out fs =
                      movePhase (exportDirPath cwd m) out
                        ([Op.loadCall (m ++ ".pt"), Op.exportCall,
                          Op.rmtreeOp out]) fs2 := by
                    simp [export_model, hload, hset, hex, hrm]
                  rw [hred] at h ⊢
                  obtain ⟨_, _, _, _, _, _, _, _, _, _, _, _, htr⟩ :=
                    movePhase_ok_spec (exportDirPath cwd m) out _ fs2 d n h
                  rw [htr]
                  rfl
            · have hred : export_model l (some t) cwd m out fs =
                  movePhase (exportDirPath cwd m) out
                    ([Op.loadCall (m ++ ".pt"), Op.exportCall]) fs1 := by
                simp [export_model, hload, hset, hex]
              rw [hred] at hmem
              rcases movePhase_trace_cases (exportDirPath cwd m) out _ fs1 with
                ht | ht | ht <;> rw [ht] at hmem <;> simp at hmem

/-- Witness for C4 (amended): the run on a pre-existing destination performed
the remove, and its trace is exactly load, export, remove, mkdir, move. -/
theorem C4_remove_then_mkdir_then_move_witness :
    preRun.result = .ok (["out", "model"], 150) ∧
    Op.rmtreeOp ["out", "model"] ∈ preRun.trace ∧
    preRun.trace = [Op.loadCall ("yolo26s" ++ ".pt"), Op.exportCall,
      Op.rmtreeOp ["out", "model"], Op.mkdirOp (["out", "model"] : FsPath).dropLast,
      Op.moveOp (exportDirPath ["work"] "yolo26s") ["out", "model"]] :=
  ⟨rfl, by decide,
    C4_remove_then_mkdir_then_move demoLoad (some demoListing) ["work"] "yolo26s"
      ["out", "model"] preFs ["out", "model"] 150 rfl (by decide)⟩

/-- C5: when the load step fails, the run reports the load error, performs no
filesystem operation (the trace holds only the load call), and leaves the
whole filesystem — in particular `output_dir` — untouched. -/
theorem C5_load_failure_untouched (l : String → Bool) (eo : Option Entries)
    (cwd : FsPath) (m : String) (out : FsPath) (fs : Entry)
    (hload : l (m ++ ".pt") = false) :
    (export_model l eo cwd m out fs).fs = fs ∧
    (export_model l eo cwd m out fs).trace = [Op.loadCall (m ++ ".pt")] ∧
    (export_model l eo cwd m out fs).result = .error .modelNotFound := by
  simp [export_model, hload]

/-- Witness for C5: the run whose loader rejects everything changes nothing. -/
theorem C5_load_failure_untouched_witness :
    noLoad ("m" ++ ".pt") = false ∧
    loadFailRun.fs = demoFs ∧
    loadFailRun.trace = [Op.loadCall ("m" ++ ".pt")] ∧
    loadFailRun.result = .error .modelNotFound := by
  refine ⟨rfl, ?_⟩
  exact C5_load_failure_untouched noLoad (some demoListing) ["work"] "m" ["out"]
    demoFs rfl

/-- C6: when the remove of `output_dir` was performed and the run then fails
(before the move completes), `output_dir` is absent in the final
filesystem. -/
theorem C6_failure_after_remove_absent (l : String → Bool) (eo : Option Entries)
    (cwd : FsPath) (m : String) (out : FsPath) (fs : Entry) (err : ExportError)
    (hmem : Op.rmtreeOp out ∈ (export_model l eo cwd m out fs).trace)
    (herr : (export_model l eo cwd m out fs).result = .error err) :
    lookup (export_model l eo cwd m out fs).fs out = none := by
  by_cases hload : l (m ++ ".pt") = false
  · simp [export_model, hload] at hmem
  · cases ho : eo with
    | none =>
        subst ho
        simp [export_model, hload] at hmem
    | some t =>
        subst ho
        cases hset : setAt fs (exportDirPath cwd m) (.dir t) with
        | none => simp [export_model, hload, hset] at hmem
        | some fs1 =>
            by_cases hex : existsFollow fs1 out = true
            · cases hrm : rmtreeFs fs1 out with
              | none => simp [export_model, hload, hset, hex, hrm] at hmem
              | some fs2 =>
                  obtain ⟨⟨u, hlu⟩, hrm1⟩ := rmtreeFs_some fs1 fs2 out hrm
                  have hred : export_model l (some t) cwd m out fs =
                      movePhase (exportDirPath cwd m) out
                        ([Op.loadCall (m ++ ".pt"), Op.exportCall,
                          Op.rmtreeOp out]) fs2 := by
                    simp [export_model, hload, hset, hex, hrm]
                  rw [hred] at herr ⊢
                  rw [movePhase_error_lookup (exportDirPath cwd m) out _ fs2 err
                    (removeAt_some_ne_nil fs1 fs2 out hrm1) herr]
                  exact removeAt_lookup_self out fs1 fs2 hrm1
            · have hred : export_model l (some t) cwd m out fs =
                  movePhase (exportDirPath cwd m) out
                    ([Op.loadCall (m ++ ".pt"), Op.exportCall]) fs1 := by
                simp [export_model, hload, hset, hex]
              rw [hred] at hmem
              rcases movePhase_trace_cases (exportDirPath cwd m) out _ fs1 with
                ht | ht | ht <;> rw [ht] at hmem <;> simp at hmem

/-- Witness for C6: exporting onto the exporter's own output name removes the
destination, then the move fails, and the destination is left absent. -/
theorem C6_failure_after_remove_absent_witness :
    Op.rmtreeOp ["work", "m_web_model"] ∈ failRun.trace ∧
    failRun.result = .error .filesystemError ∧
    lookup failRun.fs ["work", "m_web_model"] = none :=
  ⟨by decide, rfl,
    C6_failure_after_remove_absent demoLoad (some demoListing) ["work"] "m"
      ["work", "m_web_model"] demoFs .filesystemError (by decide) rfl⟩

/-- C7: when the parent chain of `output_dir` does not exist beforehand, a
successful run creates it: afterwards every component of the parent path is a
directory. -/
theorem C7_parent_chain_created (l : String → Bool) (eo : Option Entries)
    (cwd : FsPath) (m : String) (out : FsPath) (fs : Entry) (d : FsPath) (n : Nat)
    (h0 : dirsExist fs out.dropLast = false)
    (h : (export_model l eo cwd m out fs).result = .ok (d, n)) :
    dirsExist (export_model l eo cwd m out fs).fs out.dropLast = true := by
  obtain ⟨t, _, _, _, _, hdirs, _⟩ :=
    export_model_ok_spec l eo cwd m out fs d n h
  exact hdirs

/-- Witness for C7: `out` does not exist in the initial filesystem of the
example scenario, and the successful run creates it. -/
theorem C7_parent_chain_created_witness :
    dirsExist demoFs (["out", "model"] : FsPath).dropLast = false ∧
    demoRun.result = .ok (["out", "model"], 150) ∧
    dirsExist demoRun.fs (["out", "model"] : FsPath).dropLast = true :=
  ⟨by decide, rfl,
    C7_parent_chain_created demoLoad (some demoListing) ["work"] "yolo26s"
      ["out", "model"] demoFs ["out", "model"] 150 (by decide) rfl⟩

/-- C8: the directory a successful run moves to `output_dir` is the one named
`{model_name}_web_model` in the current working directory: the run's last
recorded operation is exactly that move. -/
theorem C8_moves_conventional_dir (l : String → Bool) (eo : Option Entries)
    (cwd : FsPath) (m : String) (out : FsPath) (fs : Entry) (d : FsPath) (n : Nat)
    (h : (export_model l eo cwd m out fs).result = .ok (d, n)) :
    (export_model l eo cwd m out fs).trace.getLast? =
      some (Op.moveOp (exportDirPath cwd m) out) := by
  obtain ⟨t, _, _, _, _, _, htr⟩ :=
    export_model_ok_spec l eo cwd m out fs d n h
  exact htr

/-- Witness for C8: the example scenario ends with the move of
`work/yolo26s_web_model` to `out/model`. -/
theorem C8_moves_conventional_dir_witness :
    demoRun.result = .ok (["out", "model"], 150) ∧
    demoRun.trace.getLast? =
      some (Op.moveOp (exportDirPath ["work"] "yolo26s") ["out", "model"]) :=
  ⟨rfl, C8_moves_conventional_dir demoLoad (some demoListing) ["work"] "yolo26s"
    ["out", "model"] demoFs ["out", "model"] 150 rfl⟩

/-- C9: with the same deterministic exporter output, running the export twice
with identical inputs — the second run starting from the first run's final
filesystem — reports the same total byte count whenever both runs succeed. -/
theorem C9_idempotent_total (l : String → Bool) (t : Entries)
    (cwd : FsPath) (m : String) (out : FsPath) (fs : Entry)
    (d1 d2 : FsPath) (n1 n2 : Nat)
    (h1 : (export_model l (some t) cwd m out fs).result = .ok (d1, n1))
    (h2 : (export_model l (some t) cwd m out
      ((export_model l (some t) cwd m out fs).fs)).result = .ok (d2, n2)) :
    n2 = n1 := by
  obtain ⟨t1, ht1, _, _, hn1, _, _⟩ :=
    export_model_ok_spec l (some t) cwd m out fs d1 n1 h1
  obtain ⟨t2, ht2, _, _, hn2, _, _⟩ :=
    export_model_ok_spec l (some t) cwd m out _ d2 n2 h2
  injection ht1 with he1
  injection ht2 with he2
  subst he1
  subst he2
  rw [hn1, hn2]

/-- Witness for C9: both runs of the example scenario succeed and report 150
bytes. -/
theorem C9_idempotent_total_witness :
    demoRun.result = .ok (["out", "model"], 150) ∧
    demoRunTwice.result = .ok (["out", "model"], 150) ∧
    (150 : Nat) = 150 :=
  ⟨rfl, rfl,
    C9_idempotent_total demoLoad demoListing ["work"] "yolo26s" ["out", "model"]
      demoFs ["out", "model"] ["out", "model"] 150 150 rfl rfl⟩

/-- C10: every run calls the load operation exactly once, as its first step,
and the argument is the model identifier with the literal `.pt` suffix
appended — never the bare identifier. -/
theorem C10_load_arg_pt_suffix (l : String → Bool) (eo : Option Entries)
    (cwd : FsPath) (m : String) (out : FsPath) (fs : Entry) :
    (export_model l eo cwd m out fs).trace.head? =
      some (Op.loadCall (m ++ ".pt")) ∧
    (export_model l eo cwd m out fs).trace.filter isLoad =
      [Op.loadCall (m ++ ".pt")] := by
  by_cases hload : l (m ++ ".pt") = false
  · simp [export_model, hload, isLoad]
  · cases ho : eo with
    | none => simp [export_model, hload, isLoad]
    | some t =>
        cases hset : setAt fs (exportDirPath cwd m) (.dir t) with
        | none => simp [export_model, hload, hset, isLoad]
        | some fs1 =>
            by_cases hex : existsFollow fs1 out = true
            · cases hrm : rmtreeFs fs1 out with
              | none => simp [export_model, hload, hset, hex, hrm, isLoad]
              | some fs2 =>
                  have hred : export_model l (some t) cwd m out fs =
                      movePhase (exportDirPath cwd m) out
                        ([Op.loadCall (m ++ ".pt"), Op.exportCall,
                          Op.rmtreeOp out]) fs2 := by
                    simp [export_model, hload, hset, hex, hrm]
                  rw [hred]
                  rcases movePhase_trace_cases (exportDirPath cwd m) out _ fs2 with
                    ht | ht | ht <;> rw [ht] <;> simp [isLoad]
            · have hred : export_model l (some t) cwd m out fs =
                  movePhase (exportDirPath cwd m) out
                    ([Op.loadCall (m ++ ".pt"), Op.exportCall]) fs1 := by
                simp [export_model, hload, hset, hex]
              rw [hred]
              rcases movePhase_trace_cases (exportDirPath cwd m) out _ fs1 with
                ht | ht | ht <;> rw [ht] <;> simp [isLoad]

end ExportModel
